import Mathlib

/-!
# cocaine-framework-go: asynchronous transport and HTTP adapter

A shallow embedding of `cocaine/socket.go` (the `AsyncBuff` coordinator, the
`ASocket` read and write pumps) and of `cocaine12/httphandler.go` (header
conversion, `UnpackProxyRequest`, `WrapHandler`), with the properties the
specification states about them.

Goroutines and channels are modelled by a labelled transition system: a state
records where the coordinator goroutine stands and what its channels hold, an
event is one communication that completes.  An event that is not enabled in a
state (the communication would block) has no successor.
-/

namespace Cocaine

/-! ## Data model -/

/-- A `RawMessage` is a byte slice; a byte is a natural number below 256. -/
abbrev RawMessage := List Nat

/-! ## `AsyncBuff` (socket.go, lines 15-69) -/

/-- Where the goroutine started by `AsyncBuff.loop` stands. -/
inductive Phase where
  /-- blocked in the `select` statement of the loop body -/
  | selecting
  /-- left the `for` loop through `break`; the goroutine is over -/
  | broke
  /-- ran the `case <-bf.stop` branch and returned; the goroutine is over -/
  | stopped
deriving DecidableEq, Repr

/-- The state of one `AsyncBuff`: the local variables of the coordinator
(`pending`, `_in`, `finished`), the `bf.stop` channel (buffered, capacity 1),
and the history of `bf.out` (what the consumer received, how often it was
closed). -/
structure AsyncBuff where
  /-- `pending`, the data buffer -/
  pending : List RawMessage
  /-- whether the local `_in` has been set to `nil` -/
  inNil : Bool
  /-- the `finished` flag -/
  finished : Bool
  /-- position of the goroutine -/
  phase : Phase
  /-- number of values held in the buffer of `bf.stop` -/
  stopBuf : Nat
  /-- items the consumer has received from `bf.out`, oldest first -/
  delivered : List RawMessage
  /-- number of times `close(bf.out)` has run -/
  outCloses : Nat
deriving DecidableEq, Repr

/-- Capacity of `bf.stop`: `make(chan bool, 1)`. -/
def stopCap : Nat := 1

/-- One communication that completes. -/
inductive Event where
  /-- `case incoming, ok := <-_in` with `ok = true`: the producer sent `m` -/
  | recv (m : RawMessage)
  /-- `case incoming, ok := <-_in` with `ok = false`: the producer closed `bf.in` -/
  | recvClosed
  /-- `case _out <- first`: the consumer took the head of the queue -/
  | send
  /-- `case <-bf.stop`: the coordinator took a stop signal -/
  | takeStop
  /-- a call of `Stop()` completed its send `bf.stop <- true` and returned -/
  | stopCall
deriving DecidableEq, Repr

/-- The head of the `for` loop, lines 33-41: with a non-empty queue the
coordinator goes to the `select` offering `pending[0]` on `bf.out`; with an
empty queue and `finished` set it breaks; otherwise it goes to the `select`
with `_out == nil`. -/
def loopTop (s : AsyncBuff) : AsyncBuff :=
  if s.pending.length > 0 then { s with phase := Phase.selecting }
  else if s.finished then { s with phase := Phase.broke }
  else { s with phase := Phase.selecting }

/-- `NewAsyncBuf`: three fresh channels, then `loop()` starts the goroutine,
which reaches its first `select` with an empty queue. -/
def NewAsyncBuf : AsyncBuff :=
  loopTop
    { pending := [], inNil := false, finished := false, phase := Phase.selecting,
      stopBuf := 0, delivered := [], outCloses := 0 }

/-- The `select` statement of the loop, lines 42-56, followed by the head of
the next iteration.  A receive from a `nil` channel and a send on a `nil`
channel are never ready. -/
def select (s : AsyncBuff) : Event → Option AsyncBuff
  | Event.recv m =>
    if s.inNil then none
    else some (loopTop { s with pending := s.pending ++ [m] })
  | Event.recvClosed =>
    if s.inNil then none
    else some (loopTop { s with finished := true, inNil := true })
  | Event.send =>
    match s.pending with
    | [] => none
    | first :: rest =>
      some (loopTop { s with pending := rest, delivered := s.delivered ++ [first] })
  | Event.takeStop =>
    if s.stopBuf = 0 then none
    else some { s with stopBuf := s.stopBuf - 1, outCloses := s.outCloses + 1,
                       phase := Phase.stopped }
  | Event.stopCall => none

/-- `Stop()`, lines 61-69: a `select` whose only case is the send
`bf.stop <- true` (the `default` case is commented out), so the call returns
exactly when the send completes, which needs room in the buffer. -/
def Stop (s : AsyncBuff) : Option AsyncBuff :=
  if s.stopBuf < stopCap then some { s with stopBuf := s.stopBuf + 1 } else none

/-- One step of the system made of the coordinator and the callers of
`Stop()`.  The coordinator moves only while it is in its `select`. -/
def step (s : AsyncBuff) (e : Event) : Option AsyncBuff :=
  match e with
  | Event.stopCall => Stop s
  | _ => if s.phase = Phase.selecting then select s e else none

/-- A run: the events of the list happen in order; `none` when one of them is
not enabled. -/
def run (s : AsyncBuff) : List Event → Option AsyncBuff
  | [] => some s
  | e :: es => (step s e).bind (fun t => run t es)

/-- The items the coordinator accepted from `bf.in` during a run. -/
def accepted : List Event → List RawMessage
  | [] => []
  | Event.recv m :: es => m :: accepted es
  | _ :: es => accepted es

/-- Number of `Stop()` calls that returned during a run. -/
def stopCalls (es : List Event) : Nat := es.count Event.stopCall

/-- Number of stop signals the coordinator took during a run. -/
def stopsTaken (es : List Event) : Nat := es.count Event.takeStop

/-! ## `ASocket` pumps (socket.go, lines 103-129) -/

/-- `writeloop`, lines 103-112.  `chunks` are the items that `range
sock.clientToSock.out` yields, `write c m` is `sock.Conn.Write(m)` on the
connection in state `c`: the connection afterwards and whether `err != nil`.
The result is the log of the calls of `Write`, each with its outcome. -/
def writeloop {σ : Type} (write : σ → RawMessage → σ × Bool) :
    σ → List RawMessage → List (RawMessage × Bool)
  | _, [] => []
  | c, incoming :: rest =>
    let r := write c incoming
    if r.2 then [(incoming, true)]
    else (incoming, false) :: writeloop write r.1 rest

/-- The connection after the writes of `ms` were made on it in order. -/
def connAfter {σ : Type} (write : σ → RawMessage → σ × Bool) (c : σ) (ms : List RawMessage) : σ :=
  ms.foldl (fun c m => (write c m).1) c

/-- Length of the scratch buffer of `readloop`: `make([]byte, 2048)`. -/
def scratchSize : Nat := 2048

/-- What one call of `sock.Conn.Read(buf)` returns: the bytes the connection
hands over (stored at the front of `buf`, their number is `count`) and whether
`err != nil`; end-of-stream is the error `io.EOF`. -/
structure ReadResult where
  /-- the bytes read by this call -/
  data : List Nat
  /-- whether the call reports an error -/
  err : Bool
deriving DecidableEq, Repr

/-- The state of the read pump: the scratch buffer, and what it did to
`sock.socketToClient.in` and to the connection so far. -/
structure ReadPump where
  /-- contents of `buf` -/
  buf : List Nat
  /-- chunks sent on `sock.socketToClient.in`, oldest first -/
  fed : List RawMessage
  /-- number of times `close(sock.socketToClient.in)` has run -/
  inCloses : Nat
  /-- number of calls of `sock.Conn.Read` -/
  reads : Nat
deriving DecidableEq, Repr

/-- `sock.Conn.Read(buf)`: the bytes read overwrite the front of the buffer,
the rest of the buffer keeps what it held. -/
def connRead (buf : List Nat) (r : ReadResult) : List Nat × Nat × Bool :=
  (r.data.take buf.length ++ buf.drop r.data.length, r.data.length, r.err)

/-- The body of the `for` loop of `readloop`, lines 117-127, run on the
results of the successive reads; when the list is used up the next `Read` has
not returned yet.  `none` is the panic of `buf[:count]` with `count` beyond
the buffer. -/
def readloopFrom (p : ReadPump) : List ReadResult → Option ReadPump
  | [] => some p
  | r :: rs =>
    let out := connRead p.buf r
    let buf := out.1
    let count := out.2.1
    if out.2.2 then
      some { p with buf := buf, inCloses := p.inCloses + 1, reads := p.reads + 1 }
    else if count > buf.length then none
    else
      let bufferToSend := buf.take count
      readloopFrom
        { buf := buf, fed := p.fed ++ [bufferToSend], inCloses := p.inCloses,
          reads := p.reads + 1 } rs

/-- `readloop`: the pump starts with a zeroed buffer of 2048 bytes. -/
def readloop (rs : List ReadResult) : Option ReadPump :=
  readloopFrom { buf := List.replicate scratchSize 0, fed := [], inCloses := 0, reads := 0 } rs

/-- The reads that come before the first one reporting an error. -/
def goodReads (rs : List ReadResult) : List ReadResult :=
  rs.takeWhile (fun r => !r.err)

/-! ## HTTP adapter (httphandler.go) -/

/-- `type Headers [][2]string`. -/
abbrev Headers := List (String × String)

/-- Go's `http.Header`, a `map[string][]string`, as the list of its entries
(the keys are distinct).  For a `range` over the map the order of the list is
the order in which the iteration visits the entries. -/
abbrev HttpHeader := List (String × List String)

/-- What the adapter uses of Go's `net/http` without defining it. -/
structure NetHttp where
  /-- the function `textproto.CanonicalMIMEHeaderKey` -/
  canonicalKey : String → String
  /-- the error with which `http.NewRequest` rejects a method and a URL,
  `none` when it accepts them -/
  requestError : String → String → Option String

/-- The values stored under a key of the map; none for an absent key. -/
def HttpHeader.values (h : HttpHeader) (k : String) : List String :=
  match h.find? (fun e => e.1 == k) with
  | some e => e.2
  | none => []

/-- Whether the map has an entry for the key. -/
def HttpHeader.has (h : HttpHeader) (k : String) : Bool :=
  h.any (fun e => e.1 == k)

/-- `Header.Add`: `h[key] = append(h[key], value)` under the canonical key. -/
def HttpHeader.Add (lib : NetHttp) (h : HttpHeader) (key value : String) : HttpHeader :=
  let k := lib.canonicalKey key
  if h.has k then h.map (fun e => if e.1 == k then (e.1, e.2 ++ [value]) else e)
  else h ++ [(k, [value])]

/-- `Header.Get`: the first value under the canonical key, `""` without one. -/
def HttpHeader.Get (lib : NetHttp) (h : HttpHeader) (key : String) : String :=
  match h.values (lib.canonicalKey key) with
  | [] => ""
  | v :: _ => v

/-- `Header.Del`: `delete(h, key)` under the canonical key. -/
def HttpHeader.Del (lib : NetHttp) (h : HttpHeader) (key : String) : HttpHeader :=
  h.filter (fun e => !(e.1 == lib.canonicalKey key))

/-- The value `response.Write` is given: the array `[code, headers]` built by
`WriteHead`, or a string. -/
inductive Payload where
  /-- `[]interface{}{code, headers}` -/
  | array (code : Nat) (headers : Headers)
  /-- a string -/
  | text (s : String)
deriving DecidableEq, Repr

/-- `WriteHead`, lines 61-63. -/
def WriteHead (code : Nat) (headers : Headers) : Payload :=
  Payload.array code headers

/-- `HttpHeaderToCocaineHeader`, lines 65-73.  `make(Headers, len(header))`
is a slice of `len(header)` zero values, two empty strings each; the loops
append to it. -/
def HttpHeaderToCocaineHeader (header : HttpHeader) : Headers :=
  let hdr : Headers := List.replicate header.length ("", "")
  header.foldl
    (fun hdr entry => entry.2.foldl (fun hdr headerValue => hdr ++ [(entry.1, headerValue)]) hdr)
    hdr

/-- `CocaineHeaderToHttpHeader`, lines 75-81. -/
def CocaineHeaderToHttpHeader (lib : NetHttp) (hdr : Headers) : HttpHeader :=
  hdr.foldl (fun header hdrValues => HttpHeader.Add lib header hdrValues.1 hdrValues.2) []

/-- The record `v` that `UnpackProxyRequest` decodes the first chunk into. -/
structure ProxyRecord where
  /-- field `Method` -/
  Method : String
  /-- field `Uri` -/
  Uri : String
  /-- field `Version` -/
  Version : String
  /-- field `Headers` -/
  Headers : Headers
  /-- field `Body` -/
  Body : List Nat
deriving DecidableEq, Repr

/-- The zero value of the record, as `var v struct` declares it. -/
def ProxyRecord.zero : ProxyRecord :=
  { Method := "", Uri := "", Version := "", Headers := [], Body := [] }

/-- `codec.NewDecoderBytes(raw, hHTTPReq).Decode(&v)`: what the call leaves in
`v`, which starts as the zero value, and the error it returns, `none` for a
chunk that is a packed encoding of the record. -/
abbrev Decoder := RawMessage → ProxyRecord × Option String

/-- The `Body` of a request: the reader over the raw bytes that `NewRequest`
builds from `bytes.NewBuffer(v.Body)`, or a `gzipReader` around a body. -/
inductive ReqBody where
  /-- reads the bytes as they are -/
  | buffer (bytes : List Nat)
  /-- `&gzipReader` with field `body`: reads through `gzip.NewReader(body)` -/
  | gzipReader (body : ReqBody)
deriving DecidableEq, Repr

/-- The fields of `http.Request` the adapter reads or writes. -/
structure HttpRequest where
  /-- field `Method` -/
  Method : String
  /-- field `URL`, as the string it was parsed from -/
  URL : String
  /-- field `Header` -/
  Header : HttpHeader
  /-- field `Host` -/
  Host : String
  /-- field `RemoteAddr` -/
  RemoteAddr : String
  /-- field `ContentLength` -/
  ContentLength : Int
  /-- field `Body` -/
  Body : ReqBody
deriving DecidableEq, Repr

/-- `http.NewRequest(method, urlStr, body)` for a `*bytes.Buffer` body: an
empty method stands for `GET`, the content length is the length of the
buffer, the header map is empty. -/
def NewRequest (lib : NetHttp) (method urlStr : String) (body : List Nat) :
    Except String HttpRequest :=
  let method := if method = "" then "GET" else method
  match lib.requestError method urlStr with
  | some e => Except.error e
  | none =>
    Except.ok
      { Method := method, URL := urlStr, Header := [], Host := "", RemoteAddr := "",
        ContentLength := (body.length : Int), Body := ReqBody.buffer body }

/-- `UnpackProxyRequest`, lines 26-59.  The result of `Decode` is not looked
at: the function goes on with whatever is in `v`. -/
def UnpackProxyRequest (lib : NetHttp) (decode : Decoder) (raw : RawMessage) :
    Except String HttpRequest :=
  let v := (decode raw).1
  match NewRequest lib v.Method v.Uri v.Body with
  | Except.error err => Except.error err
  | Except.ok req =>
    let req := { req with Header := CocaineHeaderToHttpHeader lib v.Headers }
    let req := { req with Host := HttpHeader.Get lib req.Header "Host" }
    let xRealIp := HttpHeader.Get lib req.Header "X-Real-IP"
    let req := if xRealIp ≠ "" then { req with RemoteAddr := xRealIp } else req
    let hasBody := req.Method ≠ "HEAD" ∧ req.ContentLength ≠ 0
    if hasBody ∧ HttpHeader.Get lib req.Header "Content-Encoding" = "gzip" then
      let req := { req with Header := HttpHeader.Del lib req.Header "Content-Encoding" }
      let req := { req with Header := HttpHeader.Del lib req.Header "Content-Length" }
      let req := { req with ContentLength := -1 }
      Except.ok { req with Body := ReqBody.gzipReader req.Body }
    else Except.ok req

/-- The error `request.Read()` returns: whether `IsTimeout(err)` holds and the
text `err.Error()`. -/
structure ReadError where
  /-- `IsTimeout(err)` -/
  timeout : Bool
  /-- `err.Error()` -/
  text : String
deriving DecidableEq, Repr

/-- What the wrapper built by `WrapHandler` does to its surroundings. -/
inductive Effect where
  /-- `response.Write(p)` -/
  | write (p : Payload)
  /-- `response.Close()` -/
  | close
  /-- `handler.ServeHTTP(w, httpRequest)` is entered -/
  | serveHTTP (req : HttpRequest)
  /-- `w.finishRequest()` -/
  | finishRequest
deriving DecidableEq, Repr

/-- `http.StatusRequestTimeout`. -/
def StatusRequestTimeout : Nat := 408

/-- `http.StatusBadRequest`. -/
def StatusBadRequest : Nat := 400

/-- The wrapper that `WrapHandler` returns, lines 114-150, as the list of its
effects in order.  `read` is the result of `request.Read()`, `handler req`
what the wrapped handler does while it serves `req`; the deferred
`response.Close()` runs last on every path. -/
def WrapHandler (lib : NetHttp) (decode : Decoder) (handler : HttpRequest → List Effect)
    (read : Except ReadError RawMessage) : List Effect :=
  let body : List Effect :=
    match read with
    | Except.error err =>
      if err.timeout then
        [Effect.write (WriteHead StatusRequestTimeout []),
         Effect.write (Payload.text "request was not received during a timeout")]
      else
        [Effect.write (WriteHead StatusBadRequest []),
         Effect.write (Payload.text ("cannot process request " ++ err.text))]
    | Except.ok msg =>
      match UnpackProxyRequest lib decode msg with
      | Except.error _ =>
        [Effect.write (WriteHead StatusBadRequest []),
         Effect.write (Payload.text "malformed request")]
      | Except.ok httpRequest =>
        [Effect.serveHTTP httpRequest] ++ handler httpRequest ++ [Effect.finishRequest]
  body ++ [Effect.close]

/-- Whether an effect is a call of the wrapped handler. -/
def Effect.isServe : Effect → Bool
  | Effect.serveHTTP _ => true
  | _ => false

/-! ## Properties -/

theorem run_snoc (s : AsyncBuff) (evs : List Event) (e : Event) :
    run s (evs ++ [e]) = (run s evs).bind (fun t => step t e) := by
  induction evs generalizing s with
  | nil => simp [run]
  | cons a as ih =>
    simp only [List.cons_append, run]
    cases h : step s a with
    | none => simp
    | some t => simp [ih]

theorem run_append (s : AsyncBuff) (evs evs2 : List Event) :
    run s (evs ++ evs2) = (run s evs).bind (fun t => run t evs2) := by
  induction evs generalizing s with
  | nil => simp [run]
  | cons a as ih =>
    simp only [List.cons_append, run]
    cases h : step s a with
    | none => simp
    | some t => simp [ih]

theorem accepted_snoc (evs : List Event) (e : Event) :
    accepted (evs ++ [e]) = accepted evs ++ accepted [e] := by
  induction evs with
  | nil => simp [accepted]
  | cons a as ih => cases a <;> simp [accepted, ih]

@[simp] theorem loopTop_pending (s : AsyncBuff) : (loopTop s).pending = s.pending := by
  unfold loopTop; split_ifs <;> rfl

@[simp] theorem loopTop_delivered (s : AsyncBuff) : (loopTop s).delivered = s.delivered := by
  unfold loopTop; split_ifs <;> rfl

@[simp] theorem loopTop_inNil (s : AsyncBuff) : (loopTop s).inNil = s.inNil := by
  unfold loopTop; split_ifs <;> rfl

@[simp] theorem loopTop_finished (s : AsyncBuff) : (loopTop s).finished = s.finished := by
  unfold loopTop; split_ifs <;> rfl

@[simp] theorem loopTop_stopBuf (s : AsyncBuff) : (loopTop s).stopBuf = s.stopBuf := by
  unfold loopTop; split_ifs <;> rfl

@[simp] theorem loopTop_outCloses (s : AsyncBuff) : (loopTop s).outCloses = s.outCloses := by
  unfold loopTop; split_ifs <;> rfl

theorem loopTop_phase_ne_stopped (s : AsyncBuff) : (loopTop s).phase ≠ Phase.stopped := by
  unfold loopTop; split_ifs <;> simp

theorem loopTop_broke (s : AsyncBuff) (h : (loopTop s).phase = Phase.broke) :
    s.pending = [] ∧ s.finished = true := by
  unfold loopTop at h
  split_ifs at h with h1 h2
  exact ⟨by simpa using h1, h2⟩

/-- The invariant of every state reached from `NewAsyncBuf`. -/
theorem reach_inv (evs : List Event) (s : AsyncBuff) (h : run NewAsyncBuf evs = some s) :
    s.delivered ++ s.pending = accepted evs
    ∧ s.inNil = s.finished
    ∧ (s.finished = true ↔ Event.recvClosed ∈ evs)
    ∧ (s.phase = Phase.broke → s.pending = [] ∧ s.finished = true)
    ∧ s.stopBuf + stopsTaken evs = stopCalls evs
    ∧ s.stopBuf ≤ 1
    ∧ stopsTaken evs = (if s.phase = Phase.stopped then 1 else 0)
    ∧ s.outCloses = stopsTaken evs := by
  induction evs using List.reverseRecOn generalizing s with
  | nil =>
    simp only [run, Option.some.injEq] at h
    subst h
    simp [NewAsyncBuf, loopTop, accepted, stopsTaken, stopCalls]
  | append_singleton es e ih =>
    rw [run_snoc] at h
    cases ht : run NewAsyncBuf es with
    | none => simp [ht] at h
    | some t =>
      simp only [ht, Option.some_bind] at h
      obtain ⟨h1, h2, h3, h4, h5, h6, h7, h8⟩ := ih t ht
      have hc : ∀ x : Event, stopsTaken (es ++ [x]) = stopsTaken es + stopsTaken [x] := by
        intro x; simp [stopsTaken, List.count_append]
      have hd : ∀ x : Event, stopCalls (es ++ [x]) = stopCalls es + stopCalls [x] := by
        intro x; simp [stopCalls, List.count_append]
      rw [accepted_snoc, hc, hd]
      cases e with
      | recv m =>
        have e1 : stopsTaken [Event.recv m] = 0 := by simp [stopsTaken]
        have e2 : stopCalls [Event.recv m] = 0 := by simp [stopCalls]
        simp only [step, select] at h
        split at h
        · rename_i hp
          simp only [hp] at h7
          split at h
          · simp at h
          · simp only [Option.some.injEq] at h
            subst h
            rw [e1, e2]
            refine ⟨?_, ?_, ?_, ?_, ?_, ?_, ?_, ?_⟩
            · simp [accepted, ← h1]
            · simpa using h2
            · simpa using h3
            · intro hb
              have := loopTop_broke _ hb
              simp at this
            · simpa using h5
            · simpa using h6
            · simp [loopTop_phase_ne_stopped]
              simpa using h7
            · simpa using h8
        · simp at h
      | recvClosed =>
        have e1 : stopsTaken [Event.recvClosed] = 0 := by simp [stopsTaken]
        have e2 : stopCalls [Event.recvClosed] = 0 := by simp [stopCalls]
        simp only [step, select] at h
        split at h
        · rename_i hp
          simp only [hp] at h7
          split at h
          · simp at h
          · simp only [Option.some.injEq] at h
            subst h
            rw [e1, e2]
            refine ⟨?_, ?_, ?_, ?_, ?_, ?_, ?_, ?_⟩
            · simp [accepted, ← h1]
            · simp
            · simp
            · intro hb
              have := loopTop_broke _ hb
              simpa using this
            · simpa using h5
            · simpa using h6
            · simp [loopTop_phase_ne_stopped]
              simpa using h7
            · simpa using h8
        · simp at h
      | send =>
        have e1 : stopsTaken [Event.send] = 0 := by simp [stopsTaken]
        have e2 : stopCalls [Event.send] = 0 := by simp [stopCalls]
        simp only [step, select] at h
        split at h
        · rename_i hp
          simp only [hp] at h7
          split at h
          · simp at h
          · rename_i first rest hq
            simp only [Option.some.injEq] at h
            subst h
            rw [e1, e2]
            refine ⟨?_, ?_, ?_, ?_, ?_, ?_, ?_, ?_⟩
            · simp [accepted, ← h1, hq]
            · simpa using h2
            · simpa using h3
            · intro hb
              have := loopTop_broke _ hb
              simpa using this
            · simpa using h5
            · simpa using h6
            · simp [loopTop_phase_ne_stopped]
              simpa using h7
            · simpa using h8
        · simp at h
      | takeStop =>
        have e1 : stopsTaken [Event.takeStop] = 1 := by simp [stopsTaken]
        have e2 : stopCalls [Event.takeStop] = 0 := by simp [stopCalls]
        simp only [step, select] at h
        split at h
        · rename_i hp
          simp only [hp] at h7
          split at h
          · simp at h
          · rename_i hb
            simp only [Option.some.injEq] at h
            subst h
            rw [e1, e2]
            simp at h7
            refine ⟨?_, ?_, ?_, ?_, ?_, ?_, ?_, ?_⟩
            · simp [accepted, ← h1]
            · simpa using h2
            · simpa using h3
            · simp
            · simp only []
              omega
            · simp only []
              omega
            · simp [h7]
            · simp only []
              omega
        · simp at h
      | stopCall =>
        have e1 : stopsTaken [Event.stopCall] = 0 := by simp [stopsTaken]
        have e2 : stopCalls [Event.stopCall] = 1 := by simp [stopCalls]
        simp only [step, Stop, stopCap] at h
        split at h
        · rename_i hb
          simp only [Option.some.injEq] at h
          subst h
          rw [e1, e2]
          refine ⟨?_, ?_, ?_, ?_, ?_, ?_, ?_, ?_⟩
          · simp [accepted, ← h1]
          · simpa using h2
          · simpa using h3
          · simpa using h4
          · simp only []
            omega
          · simp only []
            omega
          · simpa using h7
          · simpa using h8
        · simp at h

/-- A coordinator that has left its `select` takes part in nothing any more:
the only event left is a `Stop()` call filling the buffer of `bf.stop`. -/
theorem step_after_exit (s t : AsyncBuff) (e : Event) (hp : s.phase ≠ Phase.selecting)
    (h : step s e = some t) :
    e = Event.stopCall ∧ s.stopBuf = 0 ∧ t = { s with stopBuf := 1 } := by
  cases e with
  | stopCall =>
    simp only [step, Stop, stopCap] at h
    split at h
    · rename_i hb
      have h0 : s.stopBuf = 0 := by omega
      simp only [Option.some.injEq] at h
      subst h
      simp [h0]
    · simp at h
  | recv m => simp [step, hp] at h
  | recvClosed => simp [step, hp] at h
  | send => simp [step, hp] at h
  | takeStop => simp [step, hp] at h

theorem run_after_exit (s t : AsyncBuff) (evs : List Event) (hp : s.phase ≠ Phase.selecting)
    (h : run s evs = some t) :
    t.phase = s.phase ∧ t.delivered = s.delivered ∧ t.pending = s.pending
    ∧ t.outCloses = s.outCloses ∧ accepted evs = [] ∧ stopsTaken evs = 0 := by
  induction evs generalizing s with
  | nil =>
    simp only [run, Option.some.injEq] at h
    subst h
    simp [accepted, stopsTaken]
  | cons e es ih =>
    simp only [run] at h
    cases hs : step s e with
    | none => simp [hs] at h
    | some u =>
      simp only [hs, Option.some_bind] at h
      obtain ⟨he, _, hu⟩ := step_after_exit s u e hp hs
      subst he
      have hpu : u.phase ≠ Phase.selecting := by rw [hu]; exact hp
      obtain ⟨a1, a2, a3, a4, a5, a6⟩ := ih u hpu h
      rw [hu] at a1 a2 a3 a4
      refine ⟨a1, a2, a3, a4, ?_, ?_⟩
      · simpa [accepted] using a5
      · simpa [stopsTaken] using a6

theorem stopsTaken_le_stopCalls (evs : List Event) (s : AsyncBuff)
    (h : run NewAsyncBuf evs = some s) : stopsTaken evs ≤ stopCalls evs := by
  have := (reach_inv evs s h).2.2.2.2.1
  omega

theorem stopCalls_eq_zero (evs : List Event) (hstop : Event.stopCall ∉ evs) :
    stopCalls evs = 0 := by
  simpa [stopCalls, List.count_eq_zero] using hstop

theorem run_take (s t : AsyncBuff) (evs : List Event) (k : Nat) (h : run s evs = some t) :
    ∃ u, run s (evs.take k) = some u := by
  have h2 : run s (evs.take k ++ evs.drop k) = some t := by rw [List.take_append_drop]; exact h
  rw [run_append] at h2
  cases hu : run s (evs.take k) with
  | none => simp [hu] at h2
  | some u => exact ⟨u, rfl⟩

/-- C1. In every execution of the `AsyncBuff` coordinator in which no `Stop()`
call is made, after every number of steps the items delivered on the output
followed by the pending queue are, in order, the items accepted from the input
so far; the coordinator leaves its loop only through `break`, with the input
closed and the queue empty, and then what it delivered is all it accepted, and
it never accepts or delivers anything afterwards. -/
theorem asyncBuff_fifo_without_stop (evs : List Event) (s : AsyncBuff)
    (h : run NewAsyncBuf evs = some s) (hstop : Event.stopCall ∉ evs) :
    (∀ k, ∃ t, run NewAsyncBuf (evs.take k) = some t
        ∧ t.delivered ++ t.pending = accepted (evs.take k))
    ∧ (s.phase ≠ Phase.selecting →
        s.phase = Phase.broke ∧ Event.recvClosed ∈ evs ∧ s.finished = true ∧ s.pending = []
        ∧ s.delivered = accepted evs
        ∧ ∀ evs2 t, run s evs2 = some t → accepted evs2 = [] ∧ t.delivered = accepted evs) := by
  refine ⟨?_, ?_⟩
  · intro k
    obtain ⟨t, ht⟩ := run_take NewAsyncBuf s evs k h
    exact ⟨t, ht, (reach_inv _ t ht).1⟩
  · intro hp
    obtain ⟨h1, _, h3, h4, h5, _, h7, _⟩ := reach_inv evs s h
    have hz := stopCalls_eq_zero evs hstop
    have ht : stopsTaken evs = 0 := by omega
    have hns : s.phase ≠ Phase.stopped := by
      intro hc
      rw [ht] at h7
      simp [hc] at h7
    have hb : s.phase = Phase.broke := by
      cases hph : s.phase with
      | selecting => exact absurd hph hp
      | broke => rfl
      | stopped => exact absurd hph hns
    obtain ⟨hpe, hf⟩ := h4 hb
    have hd : s.delivered = accepted evs := by rw [← h1, hpe]; simp
    refine ⟨hb, h3.mp hf, hf, hpe, hd, ?_⟩
    intro evs2 t hr
    obtain ⟨_, a2, _, _, a5, _⟩ := run_after_exit s t evs2 hp hr
    exact ⟨a5, by rw [a2, hd]⟩

/-- Witness of C1: one item is sent, the input is closed, the item is taken;
the goroutine has left through `break` and delivered what it accepted. -/
theorem asyncBuff_fifo_without_stop_witness :
    ∃ s, run NewAsyncBuf [Event.recv [7], Event.recvClosed, Event.send] = some s
      ∧ s.phase = Phase.broke ∧ s.pending = [] ∧ s.delivered = [[7]] :=
  have h : run NewAsyncBuf [Event.recv [7], Event.recvClosed, Event.send]
      = some { pending := [], inNil := true, finished := true, phase := Phase.broke,
               stopBuf := 0, delivered := [[7]], outCloses := 0 } := by decide
  ⟨_, h, ((asyncBuff_fifo_without_stop _ _ h (by decide)).2 (by decide)).1,
    ((asyncBuff_fifo_without_stop _ _ h (by decide)).2 (by decide)).2.2.2.1,
    ((asyncBuff_fifo_without_stop _ _ h (by decide)).2 (by decide)).2.2.2.2.1⟩

/-- C2. In an execution without a `Stop()` call the coordinator never closes
`bf.out`: `close(bf.out)` stands only in the stop branch, and the graceful
drain leaves the loop through `break` with the output still open. -/
theorem graceful_drain_never_closes_out (evs : List Event) (s : AsyncBuff)
    (h : run NewAsyncBuf evs = some s) (hstop : Event.stopCall ∉ evs) :
    s.outCloses = 0 := by
  obtain ⟨_, _, _, _, h5, _, _, h8⟩ := reach_inv evs s h
  have hz := stopCalls_eq_zero evs hstop
  omega

/-- Witness of C2: two items are queued when the input is closed; after both
were taken the goroutine is over and the output has not been closed. -/
theorem graceful_drain_never_closes_out_witness :
    ∃ s, run NewAsyncBuf
          [Event.recv [7], Event.recv [8], Event.recvClosed, Event.send, Event.send] = some s
      ∧ s.phase = Phase.broke ∧ s.delivered = [[7], [8]] ∧ s.outCloses = 0 :=
  have h : run NewAsyncBuf
      [Event.recv [7], Event.recv [8], Event.recvClosed, Event.send, Event.send]
      = some { pending := [], inNil := true, finished := true, phase := Phase.broke,
               stopBuf := 0, delivered := [[7], [8]], outCloses := 0 } := by decide
  ⟨_, h, rfl, rfl, graceful_drain_never_closes_out _ _ h (by decide)⟩

/-- Counterexample to C3: after a graceful drain (the input is closed with an
empty queue, the goroutine breaks) a first `Stop()` returns, and from then on
no execution ever lets another `Stop()` return: the second call blocks for
good. -/
theorem stop_second_call_blocks_after_drain :
    ∃ s, run NewAsyncBuf [Event.recvClosed, Event.stopCall] = some s
      ∧ s.phase = Phase.broke
      ∧ ∀ evs : List Event, run s (evs ++ [Event.stopCall]) = none := by
  refine ⟨(⟨[], true, true, Phase.broke, 1, [], 0⟩ : AsyncBuff), by decide, rfl, ?_⟩
  intro evs
  cases evs with
  | nil => decide
  | cons e es =>
    simp only [List.cons_append, run]
    cases hs : step (⟨[], true, true, Phase.broke, 1, [], 0⟩ : AsyncBuff) e with
    | none => rfl
    | some u =>
      have := (step_after_exit _ u e (by decide) hs).2.1
      simp at this

/-- C3, amended. In every reachable state a call of `Stop()` returns exactly
when the coordinator has taken every signal sent before; the coordinator takes
at most one. So the first call always returns, whatever the coordinator has
done by then, a second call returns once the coordinator has taken the first
signal, and no more than two calls ever return. -/
theorem stop_returns_iff_signals_taken (evs : List Event) (s : AsyncBuff)
    (h : run NewAsyncBuf evs = some s) :
    (stopCalls evs = 0 → (Stop s).isSome = true)
    ∧ ((Stop s).isSome = true ↔ stopCalls evs = stopsTaken evs)
    ∧ stopsTaken evs ≤ 1
    ∧ stopCalls evs ≤ 2 := by
  obtain ⟨_, _, _, _, h5, h6, h7, _⟩ := reach_inv evs s h
  have ht : stopsTaken evs ≤ 1 := by
    rw [h7]; split <;> omega
  have hiff : (Stop s).isSome = true ↔ s.stopBuf = 0 := by
    unfold Stop stopCap
    split
    · simp; omega
    · simp; omega
  refine ⟨?_, ?_, ht, ?_⟩
  · intro h0
    rw [hiff]; omega
  · rw [hiff]; omega
  · omega

/-- Witness of C3, amended: the coordinator has taken the first signal, so a
second `Stop()` returns. -/
theorem stop_returns_iff_signals_taken_witness :
    ∃ s, run NewAsyncBuf [Event.stopCall, Event.takeStop] = some s
      ∧ s.phase = Phase.stopped ∧ (Stop s).isSome = true :=
  have h : run NewAsyncBuf [Event.stopCall, Event.takeStop]
      = some { pending := [], inNil := false, finished := false, phase := Phase.stopped,
               stopBuf := 0, delivered := [], outCloses := 1 } := by decide
  ⟨_, h, rfl, (stop_returns_iff_signals_taken _ _ h).2.1.mpr (by decide)⟩

/-- C4. From every reachable state in which the coordinator takes the stop
signal, that one step closes the output and ends the goroutine, with the
output closed exactly once; whatever happens afterwards, nothing more is
delivered (the pending items stay undelivered), nothing is accepted from the
input, and the output is not closed again. -/
theorem takeStop_closes_and_terminates (evs : List Event) (s t : AsyncBuff)
    (h : run NewAsyncBuf evs = some s) (hs : step s Event.takeStop = some t) :
    t.phase = Phase.stopped ∧ t.outCloses = 1
    ∧ t.delivered = s.delivered ∧ t.pending = s.pending
    ∧ ∀ evs2 u, run t evs2 = some u →
        u.phase = Phase.stopped ∧ u.delivered = s.delivered ∧ u.pending = s.pending
        ∧ accepted evs2 = [] ∧ u.outCloses = 1 := by
  obtain ⟨_, _, _, _, _, _, h7, h8⟩ := reach_inv evs s h
  simp only [step, select] at hs
  split at hs
  · rename_i hp
    split at hs
    · simp at hs
    · simp only [Option.some.injEq] at hs
      subst hs
      simp only [hp] at h7
      simp at h7
      have hc : s.outCloses + 1 = 1 := by omega
      refine ⟨rfl, hc, rfl, rfl, ?_⟩
      intro evs2 u hr
      obtain ⟨a1, a2, a3, a4, a5, _⟩ := run_after_exit _ u evs2 (by simp) hr
      exact ⟨a1, a2, a3, a5, by rw [a4]; exact hc⟩
  · simp at hs

/-- Witness of C4: an item is pending when `Stop()` is called and the
coordinator takes the signal. -/
theorem takeStop_closes_and_terminates_witness :
    ∃ t, step (⟨[[7]], false, false, Phase.selecting, 1, [], 0⟩ : AsyncBuff) Event.takeStop
          = some t
      ∧ t.phase = Phase.stopped ∧ t.outCloses = 1 ∧ t.delivered = [] ∧ t.pending = [[7]] :=
  have h : run NewAsyncBuf [Event.recv [7], Event.stopCall]
      = some { pending := [[7]], inNil := false, finished := false, phase := Phase.selecting,
               stopBuf := 1, delivered := [], outCloses := 0 } := by decide
  have hs : step (⟨[[7]], false, false, Phase.selecting, 1, [], 0⟩ : AsyncBuff) Event.takeStop
      = some { pending := [[7]], inNil := false, finished := false, phase := Phase.stopped,
               stopBuf := 0, delivered := [], outCloses := 1 } := by decide
  ⟨_, hs, (takeStop_closes_and_terminates _ _ _ h hs).1,
    (takeStop_closes_and_terminates _ _ _ h hs).2.1,
    (takeStop_closes_and_terminates _ _ _ h hs).2.2.1,
    (takeStop_closes_and_terminates _ _ _ h hs).2.2.2.1⟩

theorem writeloop_spec {σ : Type} (write : σ → RawMessage → σ × Bool) (c : σ)
    (chunks : List RawMessage) :
    (writeloop write c chunks).length ≤ chunks.length
    ∧ (writeloop write c chunks).map Prod.fst = chunks.take (writeloop write c chunks).length
    ∧ (∀ i, i < (writeloop write c chunks).length → ∃ m, chunks[i]? = some m
        ∧ (writeloop write c chunks)[i]?
            = some (m, (write (connAfter write c (chunks.take i)) m).2))
    ∧ (∀ i, i + 1 < (writeloop write c chunks).length →
        ∃ m, (writeloop write c chunks)[i]? = some (m, false))
    ∧ ((writeloop write c chunks).length < chunks.length →
        ∃ m, (writeloop write c chunks).getLast? = some (m, true)) := by
  induction chunks generalizing c with
  | nil => simp [writeloop]
  | cons m rest ih =>
    cases hw : (write c m).2 with
    | true =>
      have hl : writeloop write c (m :: rest) = [(m, true)] := by simp [writeloop, hw]
      rw [hl]
      refine ⟨by simp, by simp, ?_, by simp, ?_⟩
      · intro i hi
        have hi0 : i = 0 := by simpa using hi
        subst hi0
        simp [connAfter, hw]
      · intro _
        exact ⟨m, by simp⟩
    | false =>
      have hl : writeloop write c (m :: rest)
          = (m, false) :: writeloop write (write c m).1 rest := by simp [writeloop, hw]
      obtain ⟨i1, i2, i3, i4, i5⟩ := ih (write c m).1
      rw [hl]
      refine ⟨by simpa using i1, ?_, ?_, ?_, ?_⟩
      · simp only [List.map_cons, List.length_cons, List.take_succ_cons]
        rw [i2]
      · intro i hi
        cases i with
        | zero => simp [connAfter, hw]
        | succ k =>
          obtain ⟨x, hx1, hx2⟩ := i3 k (by simpa using hi)
          refine ⟨x, by simpa using hx1, ?_⟩
          simpa [connAfter] using hx2
      · intro i hi
        cases i with
        | zero => exact ⟨m, by simp⟩
        | succ k =>
          obtain ⟨x, hx⟩ := i4 k (by simpa using hi)
          exact ⟨x, by simpa using hx⟩
      · intro hlt
        obtain ⟨x, hx⟩ := i5 (by simpa using hlt)
        refine ⟨x, ?_⟩
        cases hq : writeloop write (write c m).1 rest with
        | nil => simp [hq] at hx
        | cons y ys =>
          rw [hq] at hx
          simpa [List.getLast?_cons_cons] using hx

/-- C5. The write pump calls `Write` on the chunks that the outbound output
yields in their order, each at most once: the chunks of its calls are a
prefix of the sequence, every call gets the connection the calls before left,
every call but the last one succeeded, the pump stops before the end of the
sequence only after a call that failed, and when no call fails all the chunks
are written. -/
theorem writeloop_stops_at_first_failure {σ : Type} (write : σ → RawMessage → σ × Bool)
    (c : σ) (chunks : List RawMessage) :
    (writeloop write c chunks).length ≤ chunks.length
    ∧ (writeloop write c chunks).map Prod.fst = chunks.take (writeloop write c chunks).length
    ∧ (∀ i, i < (writeloop write c chunks).length → ∃ m, chunks[i]? = some m
        ∧ (writeloop write c chunks)[i]?
            = some (m, (write (connAfter write c (chunks.take i)) m).2))
    ∧ (∀ i, i + 1 < (writeloop write c chunks).length →
        ∃ m, (writeloop write c chunks)[i]? = some (m, false))
    ∧ ((writeloop write c chunks).length < chunks.length →
        ∃ m, (writeloop write c chunks).getLast? = some (m, true))
    ∧ ((∀ e ∈ writeloop write c chunks, e.2 = false) →
        (writeloop write c chunks).map Prod.fst = chunks) := by
  obtain ⟨h1, h2, h3, h4, h5⟩ := writeloop_spec write c chunks
  refine ⟨h1, h2, h3, h4, h5, ?_⟩
  intro hall
  have hlen : (writeloop write c chunks).length = chunks.length := by
    by_contra hne
    obtain ⟨m, hm⟩ := h5 (lt_of_le_of_ne h1 hne)
    have := hall _ (List.mem_of_getLast?_eq_some hm)
    simp at this
  rw [h2, hlen, List.take_length]

theorem connRead_length (buf : List Nat) (r : ReadResult) (hr : r.data.length ≤ buf.length) :
    (connRead buf r).1.length = buf.length := by
  simp [connRead]
  omega

theorem connRead_take (buf : List Nat) (r : ReadResult) (hr : r.data.length ≤ buf.length) :
    (connRead buf r).1.take (connRead buf r).2.1 = r.data := by
  simp only [connRead]
  rw [List.take_of_length_le hr]
  simp

theorem readloopFrom_spec (rs : List ReadResult) (p : ReadPump)
    (hp : p.buf.length = scratchSize) (hrs : ∀ r ∈ rs, r.data.length ≤ scratchSize) :
    ∃ q, readloopFrom p rs = some q
      ∧ q.fed = p.fed ++ (goodReads rs).map ReadResult.data
      ∧ q.inCloses = p.inCloses + (if rs.any ReadResult.err then 1 else 0)
      ∧ q.reads = p.reads + min rs.length ((goodReads rs).length + 1) := by
  induction rs generalizing p with
  | nil => exact ⟨p, rfl, by simp [goodReads], by simp, by simp⟩
  | cons r rest ih =>
    have hr : r.data.length ≤ p.buf.length := by
      rw [hp]; exact hrs r (List.mem_cons_self _ _)
    have hlen := connRead_length p.buf r hr
    have htake := connRead_take p.buf r hr
    have hcount : (connRead p.buf r).2.1 = r.data.length := rfl
    have herr : (connRead p.buf r).2.2 = r.err := rfl
    cases he : r.err with
    | true =>
      refine ⟨{ p with buf := (connRead p.buf r).1, inCloses := p.inCloses + 1,
                       reads := p.reads + 1 }, by simp [readloopFrom, herr, he], ?_, ?_, ?_⟩
      · simp [goodReads, he]
      · simp [he]
      · simp [goodReads, he]
    | false =>
      have hnot : ¬ (connRead p.buf r).2.1 > (connRead p.buf r).1.length := by
        rw [hcount, hlen]; omega
      obtain ⟨q, hq, q1, q2, q3⟩ := ih
        { buf := (connRead p.buf r).1, fed := p.fed ++ [r.data], inCloses := p.inCloses,
          reads := p.reads + 1 }
        (by simp only []; rw [hlen, hp])
        (fun x hx => hrs x (List.mem_cons_of_mem _ hx))
      refine ⟨q, ?_, ?_, ?_, ?_⟩
      · simp only [readloopFrom, herr, he, Bool.false_eq_true, if_false, hnot, htake]
        exact hq
      · rw [q1]; simp [goodReads, he]
      · rw [q2]; simp [he]
      · rw [q3]; simp [goodReads, he]; omega

theorem goodReads_take_reads (rs : List ReadResult)
    (h0 : ∀ r ∈ rs, r.err = true → r.data = []) :
    ((rs.take (min rs.length ((goodReads rs).length + 1))).map ReadResult.data).flatten
      = ((goodReads rs).map ReadResult.data).flatten := by
  induction rs with
  | nil => simp [goodReads]
  | cons r rest ih =>
    cases he : r.err with
    | true =>
      have hd : r.data = [] := h0 r (List.mem_cons_self _ _) he
      simp [goodReads, he, hd]
    | false =>
      have ih2 := ih (fun x hx => h0 x (List.mem_cons_of_mem _ hx))
      have hm : min (rest.length + 1) ((goodReads rest).length + 1 + 1)
          = min rest.length ((goodReads rest).length + 1) + 1 := by omega
      have hg : goodReads (r :: rest) = r :: goodReads rest := by simp [goodReads, he]
      rw [hg]
      simp only [List.length_cons, hm, List.take_succ_cons, List.map_cons, List.flatten_cons]
      rw [ih2]

/-- Counterexample to C6: the first read returns three bytes, the second two
bytes together with an error. The pump feeds the first three bytes only, so
the chunks fed do not add up to every byte the connection returned. -/
theorem readloop_drops_bytes_of_failing_read :
    ∃ p, readloop [⟨[1, 2, 3], false⟩, ⟨[4, 5], true⟩] = some p
      ∧ p.fed = [[1, 2, 3]] ∧ p.inCloses = 1 ∧ p.reads = 2
      ∧ p.fed.flatten
          ≠ (([⟨[1, 2, 3], false⟩, ⟨[4, 5], true⟩] : List ReadResult).map ReadResult.data).flatten := by
  obtain ⟨q, hq, q1, q2, q3⟩ := readloopFrom_spec [⟨[1, 2, 3], false⟩, ⟨[4, 5], true⟩]
    { buf := List.replicate scratchSize 0, fed := [], inCloses := 0, reads := 0 }
    (by simp) (by simp [scratchSize])
  refine ⟨q, hq, ?_, ?_, ?_, ?_⟩
  · rw [q1]; simp [goodReads]
  · rw [q2]; simp
  · rw [q3]; simp [goodReads]
  · rw [q1]; simp [goodReads]

/-- C6, amended. For every sequence of results of successive reads, each of at
most 2048 bytes: the read pump feeds the inbound input one chunk for each read
that comes before the first read reporting an error, in read order, each chunk
being the first `count` bytes of the scratch buffer after that read, which are
the bytes the read returned; so the chunks fed add up to the bytes returned by
the reads before the first error, and to every byte returned when the failing
read returns none. At the first read reporting an error or end-of-stream the
pump closes the inbound input once and reads no more. -/
theorem readloop_feeds_reads_before_first_error (rs : List ReadResult)
    (hrs : ∀ r ∈ rs, r.data.length ≤ scratchSize) :
    ∃ p, readloop rs = some p
      ∧ p.fed = (goodReads rs).map ReadResult.data
      ∧ (∀ r ∈ goodReads rs, ∀ buf : List Nat, buf.length = scratchSize →
          (connRead buf r).1.take (connRead buf r).2.1 = r.data
          ∧ ((connRead buf r).1.take (connRead buf r).2.1).length = (connRead buf r).2.1)
      ∧ p.fed.flatten = ((goodReads rs).map ReadResult.data).flatten
      ∧ p.inCloses = (if rs.any ReadResult.err then 1 else 0)
      ∧ p.reads = min rs.length ((goodReads rs).length + 1)
      ∧ ((∀ r ∈ rs, r.err = true → r.data = []) →
          p.fed.flatten = ((rs.take p.reads).map ReadResult.data).flatten) := by
  obtain ⟨q, hq, q1, q2, q3⟩ := readloopFrom_spec rs
    { buf := List.replicate scratchSize 0, fed := [], inCloses := 0, reads := 0 }
    (by simp) hrs
  simp only [List.nil_append, Nat.zero_add] at q1 q2 q3
  refine ⟨q, hq, q1, ?_, by rw [q1], q2, q3, ?_⟩
  · intro r hr buf hb
    have hmem : r ∈ rs := (List.takeWhile_sublist _).subset hr
    have hle : r.data.length ≤ buf.length := by rw [hb]; exact hrs r hmem
    have ht := connRead_take buf r hle
    refine ⟨ht, ?_⟩
    rw [ht]; rfl
  · intro h0
    rw [q3, q1, goodReads_take_reads rs h0]

/-- Witness of C6, amended: two reads succeed, the third reports
end-of-stream. -/
theorem readloop_feeds_reads_before_first_error_witness :
    ∃ p, readloop [⟨[1, 2, 3], false⟩, ⟨[4], false⟩, ⟨[], true⟩] = some p
      ∧ p.fed = [[1, 2, 3], [4]] ∧ p.inCloses = 1 ∧ p.reads = 3 := by
  obtain ⟨p, hp, h1, _, _, h4, h5, _⟩ :=
    readloop_feeds_reads_before_first_error [⟨[1, 2, 3], false⟩, ⟨[4], false⟩, ⟨[], true⟩]
      (by simp [scratchSize])
  refine ⟨p, hp, ?_, ?_, ?_⟩
  · rw [h1]; simp [goodReads]
  · rw [h4]; simp
  · rw [h5]; simp [goodReads]

theorem headers_foldl_values (name : String) (values : List String) (acc : Headers) :
    values.foldl (fun hdr headerValue => hdr ++ [(name, headerValue)]) acc
      = acc ++ values.map (fun v => (name, v)) := by
  induction values generalizing acc with
  | nil => simp
  | cons v vs ih => simp [ih]

theorem headers_foldl_entries (header : HttpHeader) (acc : Headers) :
    header.foldl
        (fun hdr entry =>
          entry.2.foldl (fun hdr headerValue => hdr ++ [(entry.1, headerValue)]) hdr) acc
      = acc ++ (header.map (fun e => e.2.map (fun v => (e.1, v)))).flatten := by
  induction header generalizing acc with
  | nil => simp
  | cons e es ih =>
    rw [List.foldl_cons, ih, headers_foldl_values]
    simp

/-- C7. What the code computes: for the header map with the one entry
`X-Test: [Test]` the result is an empty pair followed by the pair of the
header, two entries; for every header map the result is one empty pair for
each header name, followed by the pairs of names and values. -/
theorem httpHeaderToCocaineHeader_prepends_empty_pairs :
    HttpHeaderToCocaineHeader [("X-Test", ["Test"])] = [("", ""), ("X-Test", "Test")]
    ∧ HttpHeaderToCocaineHeader [("X-Test", ["Test"])] ≠ [("X-Test", "Test")]
    ∧ ∀ header : HttpHeader,
        HttpHeaderToCocaineHeader header
          = List.replicate header.length ("", "")
            ++ (header.map (fun e => e.2.map (fun v => (e.1, v)))).flatten := by
  refine ⟨by decide, by decide, ?_⟩
  intro header
  simp only [HttpHeaderToCocaineHeader]
  exact headers_foldl_entries header _

theorem values_cons (e : String × List String) (es : HttpHeader) (k : String) :
    HttpHeader.values (e :: es) k = if e.1 = k then e.2 else HttpHeader.values es k := by
  by_cases h : e.1 = k
  · simp [HttpHeader.values, List.find?_cons, h]
  · simp [HttpHeader.values, List.find?_cons, h]

theorem has_cons (e : String × List String) (es : HttpHeader) (k : String) :
    HttpHeader.has (e :: es) k = (decide (e.1 = k) || HttpHeader.has es k) := by
  by_cases h : e.1 = k
  · simp [HttpHeader.has, h]
  · simp [HttpHeader.has, h]

theorem del_cons (e : String × List String) (es : HttpHeader) (k0 : String) :
    (e :: es).filter (fun x => !(x.1 == k0))
      = if e.1 = k0 then es.filter (fun x => !(x.1 == k0))
        else e :: es.filter (fun x => !(x.1 == k0)) := by
  by_cases h : e.1 = k0
  · simp [List.filter_cons, h]
  · simp [List.filter_cons, h]

theorem values_filter_ne (h : HttpHeader) (k k0 : String) (hk : k ≠ k0) :
    HttpHeader.values (h.filter (fun e => !(e.1 == k0))) k = HttpHeader.values h k := by
  induction h with
  | nil => rfl
  | cons e es ih =>
    rw [del_cons, values_cons]
    by_cases h1 : e.1 = k0
    · have h2 : ¬ e.1 = k := by rw [h1]; exact fun hc => hk hc.symm
      rw [if_pos h1, if_neg h2, ih]
    · rw [if_neg h1, values_cons, ih]

theorem has_filter_ne (h : HttpHeader) (k k0 : String) (hk : k ≠ k0) :
    HttpHeader.has (h.filter (fun e => !(e.1 == k0))) k = HttpHeader.has h k := by
  induction h with
  | nil => rfl
  | cons e es ih =>
    rw [del_cons, has_cons]
    by_cases h1 : e.1 = k0
    · have h2 : ¬ e.1 = k := by rw [h1]; exact fun hc => hk hc.symm
      rw [if_pos h1, ih]
      simp [h2]
    · rw [if_neg h1, has_cons, ih]

theorem has_filter_self (h : HttpHeader) (k0 : String) :
    HttpHeader.has (h.filter (fun e => !(e.1 == k0))) k0 = false := by
  simp [HttpHeader.has]

theorem has_filter_of_not_has (h : HttpHeader) (k k0 : String) (hn : HttpHeader.has h k = false) :
    HttpHeader.has (h.filter (fun e => !(e.1 == k0))) k = false := by
  simp only [HttpHeader.has, List.any_eq_false] at hn ⊢
  intro e he
  exact hn e (List.mem_of_mem_filter he)

theorem values_of_not_has (h : HttpHeader) (k : String) (hn : HttpHeader.has h k = false) :
    HttpHeader.values h k = [] := by
  simp only [HttpHeader.has, List.any_eq_false] at hn
  simp only [HttpHeader.values]
  have : h.find? (fun e => e.1 == k) = none := by
    rw [List.find?_eq_none]
    intro e he
    exact hn e he
  rw [this]

theorem unpack_cases (lib : NetHttp) (decode : Decoder) (raw : RawMessage) (req : HttpRequest)
    (h : UnpackProxyRequest lib decode raw = Except.ok req) :
    (((if (decode raw).1.Method = "" then "GET" else (decode raw).1.Method) ≠ "HEAD"
          ∧ ((decode raw).1.Body.length : Int) ≠ 0)
        ∧ HttpHeader.Get lib (CocaineHeaderToHttpHeader lib (decode raw).1.Headers)
            "Content-Encoding" = "gzip" →
      req.Header = HttpHeader.Del lib
          (HttpHeader.Del lib (CocaineHeaderToHttpHeader lib (decode raw).1.Headers)
            "Content-Encoding") "Content-Length"
      ∧ req.ContentLength = -1
      ∧ req.Body = ReqBody.gzipReader (ReqBody.buffer (decode raw).1.Body))
    ∧ (¬ ((((if (decode raw).1.Method = "" then "GET" else (decode raw).1.Method) ≠ "HEAD"
          ∧ ((decode raw).1.Body.length : Int) ≠ 0)
        ∧ HttpHeader.Get lib (CocaineHeaderToHttpHeader lib (decode raw).1.Headers)
            "Content-Encoding" = "gzip")) →
      req.Header = CocaineHeaderToHttpHeader lib (decode raw).1.Headers
      ∧ req.ContentLength = ((decode raw).1.Body.length : Int)
      ∧ req.Body = ReqBody.buffer (decode raw).1.Body) := by
  simp only [UnpackProxyRequest, NewRequest] at h
  split at h
  · simp at h
  · rename_i r0 hr0
    split at hr0
    · simp at hr0
    · simp only [Except.ok.injEq] at hr0
      subst hr0
      generalize (if (decode raw).1.Method = "" then "GET" else (decode raw).1.Method) = meth
        at h ⊢
      by_cases hx : HttpHeader.Get lib (CocaineHeaderToHttpHeader lib (decode raw).1.Headers)
          "X-Real-IP" = ""
      · simp only [hx, ne_eq, not_true_eq_false, if_false] at h
        split at h
        · rename_i hc
          simp only [Except.ok.injEq] at h
          subst h
          exact ⟨fun _ => ⟨rfl, rfl, rfl⟩, fun hn => absurd hc hn⟩
        · rename_i hc
          simp only [Except.ok.injEq] at h
          subst h
          exact ⟨fun hp => absurd hp hc, fun _ => ⟨rfl, rfl, rfl⟩⟩
      · simp only [hx, ne_eq, not_false_eq_true, if_true] at h
        split at h
        · rename_i hc
          simp only [Except.ok.injEq] at h
          subst h
          exact ⟨fun _ => ⟨rfl, rfl, rfl⟩, fun hn => absurd hc hn⟩
        · rename_i hc
          simp only [Except.ok.injEq] at h
          subst h
          exact ⟨fun hp => absurd hp hc, fun _ => ⟨rfl, rfl, rfl⟩⟩

theorem get_of_not_has (lib : NetHttp) (h : HttpHeader) (key : String)
    (hn : HttpHeader.has h (lib.canonicalKey key) = false) : HttpHeader.Get lib h key = "" := by
  simp only [HttpHeader.Get]
  rw [values_of_not_has h _ hn]

/-- C8. For every first chunk on which `UnpackProxyRequest` returns a request,
with `v` the record found in it: when the method is not `HEAD`, the body is
not empty and `Content-Encoding` is `gzip`, the request has no
`Content-Encoding` and no `Content-Length` header, content length -1, a body
read through gzip over the raw body, and every other header as in
`CocaineHeaderToHttpHeader(v.Headers)`; in every other case its header map is
`CocaineHeaderToHttpHeader(v.Headers)` and its body the raw body. -/
theorem unpackProxyRequest_gzip_body (lib : NetHttp) (decode : Decoder) (raw : RawMessage)
    (req : HttpRequest) (h : UnpackProxyRequest lib decode raw = Except.ok req) :
    (((decode raw).1.Method ≠ "HEAD" ∧ (decode raw).1.Body ≠ []
        ∧ HttpHeader.Get lib (CocaineHeaderToHttpHeader lib (decode raw).1.Headers)
            "Content-Encoding" = "gzip") →
      HttpHeader.has req.Header (lib.canonicalKey "Content-Encoding") = false
      ∧ HttpHeader.has req.Header (lib.canonicalKey "Content-Length") = false
      ∧ HttpHeader.Get lib req.Header "Content-Encoding" = ""
      ∧ HttpHeader.Get lib req.Header "Content-Length" = ""
      ∧ req.ContentLength = -1
      ∧ req.Body = ReqBody.gzipReader (ReqBody.buffer (decode raw).1.Body)
      ∧ ∀ k, k ≠ lib.canonicalKey "Content-Encoding" → k ≠ lib.canonicalKey "Content-Length" →
          HttpHeader.values req.Header k
            = HttpHeader.values (CocaineHeaderToHttpHeader lib (decode raw).1.Headers) k
          ∧ HttpHeader.has req.Header k
            = HttpHeader.has (CocaineHeaderToHttpHeader lib (decode raw).1.Headers) k)
    ∧ (¬ ((decode raw).1.Method ≠ "HEAD" ∧ (decode raw).1.Body ≠ []
        ∧ HttpHeader.Get lib (CocaineHeaderToHttpHeader lib (decode raw).1.Headers)
            "Content-Encoding" = "gzip") →
      req.Header = CocaineHeaderToHttpHeader lib (decode raw).1.Headers
      ∧ req.Body = ReqBody.buffer (decode raw).1.Body) := by
  obtain ⟨hg, hp⟩ := unpack_cases lib decode raw req h
  have hmeth : (if (decode raw).1.Method = "" then "GET" else (decode raw).1.Method) ≠ "HEAD"
      ↔ (decode raw).1.Method ≠ "HEAD" := by
    by_cases hm : (decode raw).1.Method = ""
    · simp [hm]
    · simp [hm]
  have hbody : ((decode raw).1.Body.length : Int) ≠ 0 ↔ (decode raw).1.Body ≠ [] := by
    simp
  refine ⟨?_, ?_⟩
  · rintro ⟨c1, c2, c3⟩
    obtain ⟨g1, g2, g3⟩ := hg ⟨⟨hmeth.mpr c1, hbody.mpr c2⟩, c3⟩
    have hce : HttpHeader.has req.Header (lib.canonicalKey "Content-Encoding") = false := by
      rw [g1]
      exact has_filter_of_not_has _ _ _ (has_filter_self _ _)
    have hcl : HttpHeader.has req.Header (lib.canonicalKey "Content-Length") = false := by
      rw [g1]
      exact has_filter_self _ _
    refine ⟨hce, hcl, get_of_not_has lib _ _ hce, get_of_not_has lib _ _ hcl, g2, g3, ?_⟩
    intro k k1 k2
    rw [g1]
    simp only [HttpHeader.Del]
    rw [values_filter_ne _ k _ k2, values_filter_ne _ k _ k1, has_filter_ne _ k _ k2,
      has_filter_ne _ k _ k1]
    exact ⟨rfl, rfl⟩
  · intro hn
    have hn2 : ¬ ((((if (decode raw).1.Method = "" then "GET" else (decode raw).1.Method) ≠ "HEAD"
          ∧ ((decode raw).1.Body.length : Int) ≠ 0)
        ∧ HttpHeader.Get lib (CocaineHeaderToHttpHeader lib (decode raw).1.Headers)
            "Content-Encoding" = "gzip")) := by
      rintro ⟨⟨d1, d2⟩, d3⟩
      exact hn ⟨hmeth.mp d1, hbody.mp d2, d3⟩
    obtain ⟨p1, _, p3⟩ := hp hn2
    exact ⟨p1, p3⟩

/-- Witness of C8: a `POST` with a two-byte body and `Content-Encoding: gzip`,
read with a key canonicalisation that leaves the keys as they are. -/
theorem unpackProxyRequest_gzip_body_witness :
    ∃ req, UnpackProxyRequest (⟨id, fun _ _ => none⟩ : NetHttp)
          (fun _ => (⟨"POST", "/", "1.1",
            [("Content-Encoding", "gzip"), ("Content-Length", "2"), ("X-Id", "a")], [31, 139]⟩,
            none)) [] = Except.ok req
      ∧ HttpHeader.has req.Header "Content-Encoding" = false
      ∧ req.ContentLength = -1
      ∧ req.Body = ReqBody.gzipReader (ReqBody.buffer [31, 139])
      ∧ HttpHeader.values req.Header "X-Id" = ["a"] :=
  have h : UnpackProxyRequest (⟨id, fun _ _ => none⟩ : NetHttp)
      (fun _ => (⟨"POST", "/", "1.1",
        [("Content-Encoding", "gzip"), ("Content-Length", "2"), ("X-Id", "a")], [31, 139]⟩,
        none)) []
      = Except.ok ⟨"POST", "/", [("X-Id", ["a"])], "", "", -1,
          ReqBody.gzipReader (ReqBody.buffer [31, 139])⟩ := by rfl
  have hc := (unpackProxyRequest_gzip_body _ _ _ _ h).1 (by decide)
  ⟨_, h, hc.1, hc.2.2.2.2.1, hc.2.2.2.2.2.1, ((hc.2.2.2.2.2.2) "X-Id" (by decide) (by decide)).1⟩

/-- C9. When `request.Read()` returns an error the wrapper does exactly three
things in this order, whatever the wrapped handler is: it writes
`WriteHead(408, empty headers)` and the timeout text for a timeout, otherwise
`WriteHead(400, empty headers)` and `cannot process request` followed by the
error text, and then it closes the response; the wrapped handler is not
called and the response is closed once, last. -/
theorem wrapHandler_read_error (lib : NetHttp) (decode : Decoder)
    (handler : HttpRequest → List Effect) (err : ReadError) :
    WrapHandler lib decode handler (Except.error err)
      = (if err.timeout then
          [Effect.write (WriteHead 408 []),
           Effect.write (Payload.text "request was not received during a timeout"),
           Effect.close]
        else
          [Effect.write (WriteHead 400 []),
           Effect.write (Payload.text ("cannot process request " ++ err.text)),
           Effect.close])
    ∧ (WrapHandler lib decode handler (Except.error err)).any Effect.isServe = false
    ∧ (WrapHandler lib decode handler (Except.error err)).count Effect.close = 1
    ∧ (WrapHandler lib decode handler (Except.error err)).length = 3
    ∧ (WrapHandler lib decode handler (Except.error err)).getLast? = some Effect.close := by
  cases ht : err.timeout with
  | true =>
    simp [WrapHandler, ht, StatusRequestTimeout, Effect.isServe, WriteHead, List.count_cons]
  | false =>
    simp [WrapHandler, ht, StatusBadRequest, Effect.isServe, WriteHead, List.count_cons]

/-- C10. What the code does with a first chunk that `Decode` rejects, leaving
the record at its zero value: the error of `Decode` is dropped,
`http.NewRequest` accepts the empty method and URL, `UnpackProxyRequest`
returns a `GET` request without error, and the wrapper calls the wrapped
handler with it instead of answering `malformed request`. -/
theorem malformed_chunk_reaches_handler (lib : NetHttp) (decode : Decoder)
    (handler : HttpRequest → List Effect) (raw : RawMessage) (e : String)
    (hd : decode raw = (ProxyRecord.zero, some e))
    (hn : lib.requestError "GET" "" = none) :
    UnpackProxyRequest lib decode raw
      = Except.ok ⟨"GET", "", [], "", "", 0, ReqBody.buffer []⟩
    ∧ WrapHandler lib decode handler (Except.ok raw)
      = [Effect.serveHTTP ⟨"GET", "", [], "", "", 0, ReqBody.buffer []⟩]
        ++ handler ⟨"GET", "", [], "", "", 0, ReqBody.buffer []⟩
        ++ [Effect.finishRequest, Effect.close]
    ∧ Effect.write (Payload.text "malformed request")
        ∉ [Effect.serveHTTP ⟨"GET", "", [], "", "", 0, ReqBody.buffer []⟩,
           Effect.finishRequest, Effect.close] := by
  have hu : UnpackProxyRequest lib decode raw
      = Except.ok ⟨"GET", "", [], "", "", 0, ReqBody.buffer []⟩ := by
    simp [UnpackProxyRequest, NewRequest, hd, ProxyRecord.zero, hn, CocaineHeaderToHttpHeader,
      HttpHeader.Get, HttpHeader.values]
  refine ⟨hu, ?_, by simp⟩
  simp [WrapHandler, hu]

/-- Witness of C10: the empty chunk, which the decoder rejects with `EOF`. -/
theorem malformed_chunk_reaches_handler_witness :
    WrapHandler (⟨id, fun _ _ => none⟩ : NetHttp) (fun _ => (ProxyRecord.zero, some "EOF"))
        (fun _ => []) (Except.ok [])
      = [Effect.serveHTTP ⟨"GET", "", [], "", "", 0, ReqBody.buffer []⟩,
         Effect.finishRequest, Effect.close] :=
  (malformed_chunk_reaches_handler (⟨id, fun _ _ => none⟩ : NetHttp)
    (fun _ => (ProxyRecord.zero, some "EOF")) (fun _ => []) [] "EOF" rfl rfl).2.1

end Cocaine
